import Mathlib

/-!
Verification of the Euler-method CLI core (`euler.cpp`) against its
natural-language specification.

The C++ `double` arithmetic is modelled over `ℚ` (the spec treats all
numeric values as reals); the tinyexpr evaluator is modelled as a
function parameter (`ℚ → ℚ → ℚ` where the claims assume an evaluable
formula, `ℚ → ℚ → Option ℚ` where evaluation failure matters), and
`std::sqrt` as an abstract function parameter.  Loops become fuel-based
recursions; where faithfulness to non-termination matters the result is
an `Option` whose `none` means the fuel ran out with the loop still
running.
-/

namespace EulerMethod

/-- `std::round`: round half away from zero, as an integer result.
Embeds the `std::round(value * scale)` call in `roundToPrecision`
(src/euler.cpp line 68). -/
def roundHalfAway (v : ℚ) : ℤ :=
  if 0 ≤ v then ⌊v + 1 / 2⌋ else -⌊-v + 1 / 2⌋

/-- `roundToPrecision` (src/euler.cpp lines 66-69):
`scale = 10^precision; return round(value * scale) / scale`. -/
def roundToPrecision (value : ℚ) (precision : ℕ) : ℚ :=
  (roundHalfAway (value * 10 ^ precision) : ℚ) / 10 ^ precision

/-- One row of the Euler table: the numeric values stored by
`stepValues` (src/euler.cpp lines 44-58), before display formatting. -/
structure StepRecord where
  x : ℚ
  y : ℚ
  yp : ℚ
  dy : ℚ
  deriving DecidableEq

/-- The `while (!(x > end))` loop of `eulersMethod`
(src/euler.cpp lines 85-91), fuel-based.  `none` means the fuel was
exhausted while the loop condition still held (the C++ loop would still
be running); `some records` is the complete output of a terminated loop.
The evaluator `f` stands for `tep.evaluate()` on the current bindings. -/
def eulerLoop (f : ℚ → ℚ → ℚ) (precision : ℕ) (endX : ℚ) :
    ℕ → ℚ → ℚ → ℚ → Option (List StepRecord)
  | 0, x, _, _ => if x > endX then some [] else none
  | fuel + 1, x, y, step =>
    if x > endX then some []
    else
      let yp := roundToPrecision (f x y) precision
      let dy := roundToPrecision (yp * step) precision
      match eulerLoop f precision endX fuel (roundToPrecision (x + step) precision)
          (roundToPrecision (y + dy) precision) step with
      | some rest => some (⟨x, y, yp, dy⟩ :: rest)
      | none => none

/-- `eulersMethod` (src/euler.cpp lines 71-91), restricted to the
record-producing part: round the initial state and the step, then run
the stepping loop.  The pre-loop parse check always succeeds because the
claims quantify over evaluable formulas, modelled by the total `f`. -/
def eulersMethod (f : ℚ → ℚ → ℚ) (step x0 y0 endX : ℚ) (precision fuel : ℕ) :
    Option (List StepRecord) :=
  eulerLoop f precision endX fuel (roundToPrecision x0 precision)
    (roundToPrecision y0 precision) (roundToPrecision step precision)

lemma roundHalfAway_intCast (z : ℤ) : roundHalfAway (z : ℚ) = z := by
  unfold roundHalfAway
  by_cases h : (0 : ℚ) ≤ (z : ℚ)
  · rw [if_pos h]
    rw [show ((z : ℚ) + 1 / 2) = (1 : ℚ) / 2 + z by ring]
    rw [Int.floor_add_int]
    norm_num
  · rw [if_neg h]
    rw [show (-(z : ℚ) + 1 / 2) = (1 : ℚ) / 2 + (-z : ℤ) by push_cast; ring]
    rw [Int.floor_add_int]
    norm_num

lemma roundToPrecision_exists_int (v : ℚ) (p : ℕ) :
    ∃ z : ℤ, roundToPrecision v p = (z : ℚ) / 10 ^ p :=
  ⟨roundHalfAway (v * 10 ^ p), rfl⟩

lemma roundToPrecision_int_div (z : ℤ) (p : ℕ) :
    roundToPrecision ((z : ℚ) / 10 ^ p) p = (z : ℚ) / 10 ^ p := by
  have hs : ((10 : ℚ) ^ p) ≠ 0 := by positivity
  unfold roundToPrecision
  rw [div_mul_cancel₀ _ hs, roundHalfAway_intCast]

/-- C9: the precision rounder is idempotent: rounding an already-rounded
value at the same precision returns it unchanged, for every value and
every precision. -/
theorem roundToPrecision_idempotent (v : ℚ) (p : ℕ) :
    roundToPrecision (roundToPrecision v p) p = roundToPrecision v p := by
  obtain ⟨z, hz⟩ := roundToPrecision_exists_int v p
  rw [hz, roundToPrecision_int_div]

/-- The evaluator compiled from the formula string `0.3*(300 - y)`. -/
def c5fn (_x y : ℚ) : ℚ := 3 / 10 * (300 - y)

set_option maxRecDepth 100000 in
unseal Rat.mul Rat.add Rat.sub Rat.inv in
/-- C5: on `f = "0.3*(300-y)"`, `step = 0.1`, `x0 = 0`, `y0 = 350`,
`x_end = 10`, `precision = 6`, the stepper terminates and its first
record is `(0, 350, -15, -1.5)` while its second has `x = 0.1` and
`y = 348.5`. -/
theorem c5_scenario_first_two_records :
    (eulersMethod c5fn (1 / 10) 0 350 10 6 120).map
        (fun l => (l.head?, (l.get? 1).map fun r => (r.x, r.y))) =
      some (some ⟨0, 350, -15, -(3 / 2)⟩, some (1 / 10, 697 / 2)) := by
  decide

/-- The stepper state named by the spec's reference iteration:
current `x`, current `y`, and the (rounded) step size. -/
structure EulerState where
  x : ℚ
  y : ℚ
  step : ℚ

/-- The reference iteration, written from the spec's words
(claim C4): while `x <= x_end`, compute `yp = round(f(x,y))` and
`dy = round(yp*step)`, emit `{x, y, yp, dy}`, then advance
`x = round(x+step)` and `y = round(y+dy)`.  Fuel-based, `none` when the
fuel runs out before the loop condition fails. -/
def refIteration (f : ℚ → ℚ → ℚ) (precision : ℕ) (xEnd : ℚ) :
    ℕ → EulerState → Option (List StepRecord)
  | 0, s => if s.x ≤ xEnd then none else some []
  | fuel + 1, s =>
    if s.x ≤ xEnd then
      let yp := roundToPrecision (f s.x s.y) precision
      let dy := roundToPrecision (yp * s.step) precision
      Option.map (fun rest => ⟨s.x, s.y, yp, dy⟩ :: rest)
        (refIteration f precision xEnd fuel
          ⟨roundToPrecision (s.x + s.step) precision,
           roundToPrecision (s.y + dy) precision, s.step⟩)
    else some []

lemma eulerLoop_eq_refIteration (f : ℚ → ℚ → ℚ) (p : ℕ) (endX : ℚ) :
    ∀ (fuel : ℕ) (x y step : ℚ),
      eulerLoop f p endX fuel x y step = refIteration f p endX fuel ⟨x, y, step⟩ := by
  intro fuel
  induction fuel with
  | zero =>
    intro x y step
    simp only [eulerLoop, refIteration]
    rcases le_or_lt x endX with h | h
    · rw [if_neg (not_lt.mpr h), if_pos h]
    · rw [if_pos h, if_neg (not_le.mpr h)]
  | succ n ih =>
    intro x y step
    simp only [eulerLoop, refIteration]
    rcases le_or_lt x endX with h | h
    · rw [if_neg (not_lt.mpr h), if_pos h]
      rw [ih]
      cases refIteration f p endX n _ with
      | none => rfl
      | some rest => rfl
    · rw [if_pos h, if_neg (not_le.mpr h)]

lemma eulerLoop_head (f : ℚ → ℚ → ℚ) (p : ℕ) (endX : ℚ) (fuel : ℕ) (x y step : ℚ)
    (l : List StepRecord) (r : StepRecord)
    (h : eulerLoop f p endX fuel x y step = some (r :: l)) : r.x = x ∧ r.y = y := by
  cases fuel with
  | zero =>
    simp only [eulerLoop] at h
    split at h
    · simp at h
    · simp at h
  | succ n =>
    simp only [eulerLoop] at h
    split at h
    · simp at h
    · rcases hrec : eulerLoop f p endX n (roundToPrecision (x + step) p)
          (roundToPrecision (y + roundToPrecision (roundToPrecision (f x y) p * step) p) p)
          step with _ | rest
      · rw [hrec] at h
        simp at h
      · rw [hrec] at h
        simp only [Option.some.injEq, List.cons.injEq] at h
        rw [← h.1]
        exact ⟨rfl, rfl⟩

/-- C4: the Euler stepper's output is exactly the spec's reference
iteration started from the rounded initial state, and every nonempty
output starts with a record at the (rounded) initial point. -/
theorem eulersMethod_matches_reference (f : ℚ → ℚ → ℚ) (step x0 y0 endX : ℚ)
    (p fuel : ℕ) :
    eulersMethod f step x0 y0 endX p fuel =
      refIteration f p endX fuel
        ⟨roundToPrecision x0 p, roundToPrecision y0 p, roundToPrecision step p⟩ ∧
    (∀ (l : List StepRecord) (r : StepRecord),
      eulersMethod f step x0 y0 endX p fuel = some (r :: l) →
      r.x = roundToPrecision x0 p ∧ r.y = roundToPrecision y0 p) := by
  constructor
  · exact eulerLoop_eq_refIteration f p endX fuel _ _ _
  · intro l r h
    exact eulerLoop_head f p endX fuel _ _ _ l r h

set_option maxRecDepth 100000 in
unseal Rat.mul Rat.add Rat.sub Rat.inv in
/-- Witness for C4: the stepper with `f = 0`, `step = 1`, `x0 = y0 = 0`,
`x_end = 0`, precision 0 produces the single record `(0, 0, 0, 0)`, whose
head is indeed at the rounded initial point. -/
theorem eulersMethod_matches_reference_witness :
    (0 : ℚ) = roundToPrecision 0 0 ∧ (0 : ℚ) = roundToPrecision 0 0 := by
  have h := (eulersMethod_matches_reference (fun _ _ => 0) 1 0 0 0 0 2).2
    [] ⟨0, 0, 0, 0⟩ (by decide)
  exact ⟨h.1, h.2⟩

lemma roundToPrecision_zero (p : ℕ) : roundToPrecision 0 p = 0 := by
  unfold roundToPrecision roundHalfAway
  norm_num

lemma roundToPrecision_add_round (a b : ℚ) (p : ℕ) :
    roundToPrecision (roundToPrecision a p + roundToPrecision b p) p =
      roundToPrecision a p + roundToPrecision b p := by
  obtain ⟨z, hz⟩ := roundToPrecision_exists_int a p
  obtain ⟨w, hw⟩ := roundToPrecision_exists_int b p
  rw [hz, hw, div_add_div_same, ← Int.cast_add, roundToPrecision_int_div]

lemma eulerLoop_zero_step (f : ℚ → ℚ → ℚ) (p : ℕ) (endX : ℚ) :
    ∀ (fuel : ℕ) (x y : ℚ), roundToPrecision x p = x → x ≤ endX →
      eulerLoop f p endX fuel x y 0 = none := by
  intro fuel
  induction fuel with
  | zero =>
    intro x y _ hle
    simp only [eulerLoop]
    rw [if_neg (not_lt.mpr hle)]
  | succ n ih =>
    intro x y hfix hle
    simp only [eulerLoop]
    rw [if_neg (not_lt.mpr hle)]
    have hdy : roundToPrecision (roundToPrecision (f x y) p * 0) p = 0 := by
      rw [mul_zero, roundToPrecision_zero]
    rw [hdy, add_zero, add_zero, hfix]
    rw [ih x (roundToPrecision y p) hfix hle]

/-- C1 (divergence witness for the missing step check): `eulersMethod`
performs no step validation at all; called with `step = 0` and
`round(x0) <= x_end` its loop never terminates — the fuel runs out at
every fuel amount, with no `NonTerminatingStepError` (no error of any
kind) raised before or inside the loop. -/
theorem eulersMethod_zero_step_never_terminates (f : ℚ → ℚ → ℚ)
    (x0 y0 endX : ℚ) (p fuel : ℕ) (h : roundToPrecision x0 p ≤ endX) :
    eulersMethod f 0 x0 y0 endX p fuel = none := by
  unfold eulersMethod
  rw [roundToPrecision_zero]
  exact eulerLoop_zero_step f p endX fuel _ _ (roundToPrecision_idempotent x0 p) h

unseal Rat.mul Rat.add Rat.sub Rat.inv in
/-- Witness for C1: the concrete failing call
`eulersMethod f 0 0 350 10 6` (the README's example with its step set
to zero) exhausts any fuel. -/
theorem eulersMethod_zero_step_never_terminates_witness :
    eulersMethod (fun _ _ => 0) 0 0 350 10 6 5 = none :=
  eulersMethod_zero_step_never_terminates (fun _ _ => 0) 0 350 10 6 5 (by decide)

lemma eulerLoop_past_end (f : ℚ → ℚ → ℚ) (p : ℕ) (endX : ℚ) (fuel : ℕ)
    (x y step : ℚ) (h : endX < x) :
    eulerLoop f p endX fuel x y step = some [] := by
  cases fuel with
  | zero =>
    simp only [eulerLoop]
    rw [if_pos h]
  | succ n =>
    simp only [eulerLoop]
    rw [if_pos h]

/-- C10: boundary behaviour of the stepper.  If the rounded `x0` already
exceeds `x_end` the loop body never runs and the record list is empty;
if the rounded `x0` equals `x_end` (and the rounded step is positive, so
the run terminates) the stepper emits exactly one record, at the rounded
initial point. -/
theorem eulersMethod_boundary_cases (f : ℚ → ℚ → ℚ) (step x0 y0 endX : ℚ)
    (p fuel : ℕ) :
    (endX < roundToPrecision x0 p →
      eulersMethod f step x0 y0 endX p fuel = some []) ∧
    (roundToPrecision x0 p = endX → 0 < roundToPrecision step p → 0 < fuel →
      eulersMethod f step x0 y0 endX p fuel =
        some [⟨roundToPrecision x0 p, roundToPrecision y0 p,
          roundToPrecision (f (roundToPrecision x0 p) (roundToPrecision y0 p)) p,
          roundToPrecision
            (roundToPrecision (f (roundToPrecision x0 p) (roundToPrecision y0 p)) p *
              roundToPrecision step p) p⟩]) := by
  constructor
  · intro h
    exact eulerLoop_past_end f p endX fuel _ _ _ h
  · intro hx hstep hfuel
    obtain ⟨n, rfl⟩ : ∃ n, fuel = n + 1 := by
      cases fuel with
      | zero => exact absurd hfuel (by norm_num)
      | succ n => exact ⟨n, rfl⟩
    unfold eulersMethod
    simp only [eulerLoop]
    rw [if_neg (not_lt.mpr (le_of_eq hx))]
    have hnext : endX < roundToPrecision (roundToPrecision x0 p + roundToPrecision step p) p := by
      rw [roundToPrecision_add_round, hx]
      exact lt_add_of_pos_right endX hstep
    rw [eulerLoop_past_end f p endX n _ _ _ hnext]

unseal Rat.mul Rat.add Rat.sub Rat.inv in
/-- Witness for C10: with `f = 7` constant, `step = 1`, `x0 = 1`,
`y0 = 2`, `x_end = 1`, precision 0, the run emits exactly the one record
`(1, 2, 7, 7)`; and with `x_end = 0` instead, the run is empty. -/
theorem eulersMethod_boundary_cases_witness :
    eulersMethod (fun _ _ => (7 : ℚ)) 1 1 2 1 0 3 =
      some [⟨roundToPrecision 1 0, roundToPrecision 2 0,
        roundToPrecision ((fun _ _ => (7 : ℚ)) (roundToPrecision 1 0) (roundToPrecision 2 0)) 0,
        roundToPrecision
          (roundToPrecision ((fun _ _ => (7 : ℚ)) (roundToPrecision 1 0) (roundToPrecision 2 0)) 0 *
            roundToPrecision 1 0) 0⟩] ∧
    eulersMethod (fun _ _ => (7 : ℚ)) 1 1 2 0 0 3 = some [] :=
  ⟨(eulersMethod_boundary_cases (fun _ _ => (7 : ℚ)) 1 1 2 1 0 3).2
      (by decide) (by decide) (by decide),
    (eulersMethod_boundary_cases (fun _ _ => (7 : ℚ)) 1 1 2 0 0 3).1 (by decide)⟩

/-- A drawn line segment in drawing-space coordinates (the numeric
content of one TikZ `\draw` command emitted by `printDField`). -/
structure Segment where
  x0 : ℚ
  y0 : ℚ
  x1 : ℚ
  y1 : ℚ
  deriving DecidableEq

/-- The numerical tolerance `1e-12` used by the loop bounds in
`printDField` (src/euler.cpp lines 226, 227, 249, 250). -/
def tol : ℚ := 1 / 10 ^ 12

/-- `constexpr double segLen = 2.0` (src/euler.cpp line 206). -/
def segLen : ℚ := 2

/-- `yScale = xrange / yrange` (src/euler.cpp lines 208-210). -/
def yScale (x0 xe y0 ye : ℚ) : ℚ := (xe - x0) / (ye - y0)

/-- `mapY = [&](double y) { return y0 + (y - y0) * yScale; }`
(src/euler.cpp line 213). -/
def mapY (x0 xe y0 ye y : ℚ) : ℚ := y0 + (y - y0) * yScale x0 xe y0 ye

/-- The validation block at the top of `printDField`
(src/euler.cpp lines 193-204), run before anything is sampled:
positive grid steps, positive curve step when a curve is requested,
non-decreasing ranges, non-zero y-range. -/
def dfieldChecks (x0 y0 xe ye xstep ystep : ℚ) (plotCurve : Bool)
    (curveStep : ℚ) : Except String Unit :=
  if xstep ≤ 0 ∨ ystep ≤ 0 then
    Except.error "direction field steps must be positive"
  else if plotCurve = true ∧ curveStep ≤ 0 then
    Except.error "curve step must be positive"
  else if xe < x0 ∨ ye < y0 then
    Except.error "direction field range must be increasing"
  else if ye = y0 then
    Except.error "direction field y range must be non-zero"
  else Except.ok ()

/-- `true` exactly on `Except.error`. -/
def isErr {α : Type} : Except String α → Bool
  | Except.error _ => true
  | Except.ok _ => false

/-- The values visited by a C++ loop
`for (v = start; v <= stop; v += step)`, fuel-based (a fuel-truncated
list is a prefix of the real traversal). -/
def walk (step stop : ℚ) : ℕ → ℚ → List ℚ
  | 0, _ => []
  | fuel + 1, cur =>
    if cur ≤ stop then cur :: walk step stop fuel (cur + step) else []

/-- The grid points visited by the two nested sampling loops of
`printDField` (src/euler.cpp lines 226-227): x outer from `x0` to
`xe + 1e-12` in steps of `xstep`, y inner from `y0` to `ye + 1e-12` in
steps of the adjusted `ySampleStep`. -/
def fieldGrid (x0 xe y0 ye xstep ySampleStep : ℚ) (fuel : ℕ) :
    List (ℚ × ℚ) :=
  (walk xstep (xe + tol) fuel x0).flatMap fun x =>
    (walk ySampleStep (ye + tol) fuel y0).map fun y => (x, y)

/-- `ySampleStep = ystep / yScale` (src/euler.cpp line 212). -/
def ySampleStepOf (x0 xe y0 ye ystep : ℚ) : ℚ :=
  ystep / yScale x0 xe y0 ye

/-- `slope` (src/euler.cpp lines 179-187): evaluate the formula at
`(x, y)`; a parse/evaluation failure throws
`"error parsing expr" + fn`.  The evaluator is the partial function
`f`; `fn` is the formula text. -/
def slope (f : ℚ → ℚ → Option ℚ) (fn : String) (x y : ℚ) :
    Except String ℚ :=
  match f x y with
  | some m => Except.ok m
  | none => Except.error ("error parsing expr" ++ fn)

/-- The fixed-length field segment built at one sampled point
(src/euler.cpp lines 231-236): `dx = segLen / s` with
`s = sqrt(1 + mScaled^2)`, `dy = mScaled * dx`, endpoints
`(x - dx/2, yCenter - dy/2)` and `(x + dx/2, yCenter + dy/2)`.
The square-root value is passed in as `s`. -/
def mkFieldSegment (s x yCenter mScaled : ℚ) : Segment :=
  let dx := segLen / s
  let dy := mScaled * dx
  ⟨x - dx / 2, yCenter - dy / 2, x + dx / 2, yCenter + dy / 2⟩

/-- The segment emitted for slope value `m` at grid point `(x, y)`:
`mScaled = m * yScale`, centered at `(x, mapY y)` (src/euler.cpp
lines 228-236).  `sqrtFn` models `std::sqrt`. -/
def fieldSegAt (sqrtFn : ℚ → ℚ) (x0 xe y0 ye m x y : ℚ) : Segment :=
  let mScaled := m * yScale x0 xe y0 ye
  mkFieldSegment (sqrtFn (1 + mScaled * mScaled)) x (mapY x0 xe y0 ye y) mScaled

/-- Traversal of the sampled points: each point yields a segment, and a
thrown evaluator error aborts the whole traversal (nothing is emitted,
matching the buffered output that is only printed after the loops). -/
def sampleSegs (g : ℚ × ℚ → Except String Segment) :
    List (ℚ × ℚ) → Except String (List Segment)
  | [] => Except.ok []
  | pt :: rest =>
    match g pt with
    | Except.error e => Except.error e
    | Except.ok s =>
      match sampleSegs g rest with
      | Except.error e => Except.error e
      | Except.ok segs => Except.ok (s :: segs)

/-- The field-sampling loops of `printDField`
(src/euler.cpp lines 226-241): walk the grid, evaluate the slope at
each point, emit one fixed-length segment per point; any evaluation
failure fails the whole sampling. -/
def sampleField (f : ℚ → ℚ → Option ℚ) (fn : String) (sqrtFn : ℚ → ℚ)
    (x0 y0 xe ye xstep ystep : ℚ) (fuel : ℕ) :
    Except String (List Segment) :=
  sampleSegs
    (fun pt => (slope f fn pt.1 pt.2).map fun m =>
      fieldSegAt sqrtFn x0 xe y0 ye m pt.1 pt.2)
    (fieldGrid x0 xe y0 ye xstep (ySampleStepOf x0 xe y0 ye ystep) fuel)

/-- `printDField` (src/euler.cpp lines 190-272), restricted to its
validation and field-sampling stages: run the checks, then sample the
field.  (The optional curve overlay stage is modelled separately by
`curveLoop` / `curveOverlay` below.) -/
def printDField (f : ℚ → ℚ → Option ℚ) (fn : String) (sqrtFn : ℚ → ℚ)
    (x0 y0 xe ye xstep ystep : ℚ) (plotCurve : Bool) (curveStep : ℚ)
    (fuel : ℕ) : Except String (List Segment) :=
  match dfieldChecks x0 y0 xe ye xstep ystep plotCurve curveStep with
  | Except.error e => Except.error e
  | Except.ok _ => sampleField f fn sqrtFn x0 y0 xe ye xstep ystep fuel

/-- The curve-overlay loop of `printDField`
(src/euler.cpp lines 243-266): starting from the rounded curve initial
condition, while `x <= xe + 1e-12`, stop as soon as `y` leaves
`[y0 - 1e-12, ye + 1e-12]`, otherwise retain the state `(x, y)` and
advance by one rounded Euler step.  Returns the retained raw states;
the drawn polyline projects each one through `mapY` (`curveOverlay`).
The claims about the overlay assume an evaluable formula, so the
evaluator `f` is total here. -/
def curveLoop (f : ℚ → ℚ → ℚ) (precision : ℕ) (y0 ye xe step : ℚ) :
    ℕ → ℚ → ℚ → List (ℚ × ℚ)
  | 0, _, _ => []
  | fuel + 1, x, y =>
    if x ≤ xe + tol then
      if y < y0 - tol ∨ y > ye + tol then []
      else
        let m := roundToPrecision (f x y) precision
        let dy := roundToPrecision (m * step) precision
        (x, y) :: curveLoop f precision y0 ye xe step fuel
          (roundToPrecision (x + step) precision)
          (roundToPrecision (y + dy) precision)
    else []

/-- The projected polyline points emitted for the curve overlay:
each retained state `(x, y)` is printed as `(x, mapY y)`
(src/euler.cpp line 256). -/
def curveOverlay (f : ℚ → ℚ → ℚ) (precision : ℕ)
    (curveX0 curveY0 curveStep x0 xe y0 ye : ℚ) (fuel : ℕ) :
    List (ℚ × ℚ) :=
  (curveLoop f precision y0 ye xe (roundToPrecision curveStep precision) fuel
      (roundToPrecision curveX0 precision)
      (roundToPrecision curveY0 precision)).map
    fun pt => (pt.1, mapY x0 xe y0 ye pt.2)

/-- The polyline as a segment sequence: one segment per consecutive
pair of points, so fewer than two points yield no segment. -/
def overlaySegments (pts : List (ℚ × ℚ)) : List Segment :=
  List.zipWith (fun a b => ⟨a.1, a.2, b.1, b.2⟩) pts pts.tail

unseal Rat.mul Rat.add Rat.sub Rat.inv in
/-- C6: the projector fixes `y_min`, sends `y_max` to `y_min + x_range`
(the domain maps onto a square of side `x_range`), follows the formula
`project_y(y) = y_min + (y - y_min) * (x_range / y_range)`, and on the
domain `x in [0,210], y in [60,95]` has scale factor 6, sending 60 to 60
and 95 to 270. -/
theorem mapY_projector (x0 xe y0 ye : ℚ) (h : ye ≠ y0) :
    mapY x0 xe y0 ye y0 = y0 ∧
    mapY x0 xe y0 ye ye = y0 + (xe - x0) ∧
    (∀ y, mapY x0 xe y0 ye y = y0 + (y - y0) * ((xe - x0) / (ye - y0))) ∧
    yScale 0 210 60 95 = 6 ∧
    mapY 0 210 60 95 60 = 60 ∧
    mapY 0 210 60 95 95 = 270 := by
  have hne : ye - y0 ≠ 0 := sub_ne_zero.mpr h
  refine ⟨by simp [mapY], ?_, fun y => rfl, by decide, by decide, by decide⟩
  unfold mapY yScale
  field_simp

unseal Rat.mul Rat.add Rat.sub Rat.inv in
/-- Witness for C6: the scenario domain `x_min=0, y_min=60, x_max=210,
y_max=95` projects 60 to 60 and 95 to 270 = 60 + 210. -/
theorem mapY_projector_witness :
    mapY 0 210 60 95 60 = 60 ∧ mapY 0 210 60 95 95 = 60 + (210 - 0) := by
  have h := mapY_projector 0 210 60 95 (by decide)
  exact ⟨h.2.2.2.2.1, h.2.1⟩

lemma walk_le (step stop : ℚ) :
    ∀ (fuel : ℕ) (cur v : ℚ), v ∈ walk step stop fuel cur → v ≤ stop := by
  intro fuel
  induction fuel with
  | zero =>
    intro cur v hv
    simp [walk] at hv
  | succ n ih =>
    intro cur v hv
    simp only [walk] at hv
    split at hv
    · rcases List.mem_cons.mp hv with rfl | hv
      · assumption
      · exact ih _ v hv
    · simp at hv

/-- C7: each emitted field segment has squared length `segLen^2` (fixed
length 2), is centered at the projected sample point, and its endpoint
difference is `segLen` times the unit direction `(1, mScaled)/s` where
`s = sqrt(1 + mScaled^2)`; the per-point construction scales the slope
by `yScale` and centers at `(x, mapY y)`; the inner sampling step is
`ystep / yScale`; and every value visited by a sampling walk stays
within the tolerance-extended right edge. -/
theorem fieldSegment_geometry (s x yC m : ℚ) (hpos : 0 < s)
    (hsq : s * s = 1 + m * m) :
    ((mkFieldSegment s x yC m).x1 - (mkFieldSegment s x yC m).x0) ^ 2 +
        ((mkFieldSegment s x yC m).y1 - (mkFieldSegment s x yC m).y0) ^ 2 =
      segLen ^ 2 ∧
    ((mkFieldSegment s x yC m).x0 + (mkFieldSegment s x yC m).x1) / 2 = x ∧
    ((mkFieldSegment s x yC m).y0 + (mkFieldSegment s x yC m).y1) / 2 = yC ∧
    ((mkFieldSegment s x yC m).x1 - (mkFieldSegment s x yC m).x0) * s = segLen ∧
    ((mkFieldSegment s x yC m).y1 - (mkFieldSegment s x yC m).y0) * s =
      segLen * m ∧
    (∀ sqrtFn x0 xe y0 ye mv xv yv,
      fieldSegAt sqrtFn x0 xe y0 ye mv xv yv =
        mkFieldSegment
          (sqrtFn (1 + mv * yScale x0 xe y0 ye * (mv * yScale x0 xe y0 ye)))
          xv (mapY x0 xe y0 ye yv) (mv * yScale x0 xe y0 ye)) ∧
    (∀ x0 xe y0 ye ystep,
      ySampleStepOf x0 xe y0 ye ystep = ystep / yScale x0 xe y0 ye) ∧
    (∀ step stop fuel cur v, v ∈ walk step stop fuel cur → v ≤ stop) := by
  have hs : s ≠ 0 := ne_of_gt hpos
  simp only [mkFieldSegment, segLen]
  refine ⟨?_, by ring, by ring, by field_simp; ring, by field_simp; ring,
    fun _ _ _ _ _ _ _ _ => rfl, fun _ _ _ _ _ => rfl,
    fun step stop fuel cur v hv => walk_le step stop fuel cur v hv⟩
  have hgoal : (x + 2 / s / 2 - (x - 2 / s / 2)) ^ 2 +
      (yC + m * (2 / s) / 2 - (yC - m * (2 / s) / 2)) ^ 2 =
        (2 / s) ^ 2 * (s * s) := by
    rw [hsq]
    ring
  rw [hgoal]
  field_simp
  ring

unseal Rat.mul Rat.add Rat.sub Rat.inv in
/-- Witness for C7: at slope `m = 4/3` the square root of
`1 + m^2` is `5/3`, and the emitted segment has squared length 4. -/
theorem fieldSegment_geometry_witness :
    ((mkFieldSegment (5 / 3) 1 2 (4 / 3)).x1 -
        (mkFieldSegment (5 / 3) 1 2 (4 / 3)).x0) ^ 2 +
      ((mkFieldSegment (5 / 3) 1 2 (4 / 3)).y1 -
        (mkFieldSegment (5 / 3) 1 2 (4 / 3)).y0) ^ 2 = segLen ^ 2 :=
  (fieldSegment_geometry (5 / 3) 1 2 (4 / 3) (by norm_num) (by norm_num)).1

unseal Rat.mul Rat.add Rat.sub Rat.inv in
/-- Counterexample to C2: a domain with `x_max == x_min` (here both 0,
with `y_max = 1 > y_min = 0` and positive grid steps) passes the
pre-sampling validation — only a strictly decreasing x-range is
rejected — so the operation does not fail with the degenerate-domain
error, and sampling proceeds. -/
theorem dfieldChecks_accepts_flat_x_range :
    dfieldChecks 0 0 0 1 1 1 false 1 = Except.ok () ∧
    isErr (printDField (fun _ _ => some 1) "f" (fun _ => 1)
      0 0 0 1 1 1 false 1 3) = false := by
  constructor
  · rfl
  · decide

/-- C2 as amended: with positive grid steps (and a positive curve step
when a curve is requested), the pre-sampling validation fails exactly
when `x_max < x_min` (strict) or `y_max <= y_min`, and any validation
error makes the whole operation fail before sampling, with no segment
produced. -/
theorem dfieldChecks_degenerate_domain (x0 y0 xe ye xstep ystep : ℚ)
    (pc : Bool) (cs : ℚ) (hx : 0 < xstep) (hy : 0 < ystep)
    (hc : pc = true → 0 < cs) :
    (isErr (dfieldChecks x0 y0 xe ye xstep ystep pc cs) = true ↔
      xe < x0 ∨ ye ≤ y0) ∧
    (∀ (e : String) (f : ℚ → ℚ → Option ℚ) (fn : String) (sq : ℚ → ℚ)
      (fuel : ℕ), dfieldChecks x0 y0 xe ye xstep ystep pc cs = Except.error e →
      printDField f fn sq x0 y0 xe ye xstep ystep pc cs fuel =
        Except.error e) := by
  constructor
  · unfold dfieldChecks
    rw [if_neg (by push_neg; exact ⟨hx, hy⟩)]
    rw [if_neg (fun hconj => absurd (hc hconj.1) (not_lt.mpr hconj.2))]
    by_cases h3 : xe < x0 ∨ ye < y0
    · rw [if_pos h3]
      simp only [isErr, true_iff]
      exact h3.imp id le_of_lt
    · rw [if_neg h3]
      push_neg at h3
      by_cases h4 : ye = y0
      · rw [if_pos h4]
        simp only [isErr, true_iff]
        exact Or.inr (le_of_eq h4)
      · rw [if_neg h4]
        simp only [isErr, Bool.false_eq_true, false_iff]
        push_neg
        exact ⟨h3.1, lt_of_le_of_ne h3.2 fun heq => h4 heq.symm⟩
  · intro e f fn sq fuel hchk
    unfold printDField
    rw [hchk]

unseal Rat.mul Rat.add Rat.sub Rat.inv in
/-- Witness for the amended C2: for the domain `x in [1,0]` (reversed),
`y in [0,1]`, unit grid steps and no curve, the validation reports an
error, matching `x_max < x_min`. -/
theorem dfieldChecks_degenerate_domain_witness :
    isErr (dfieldChecks 1 0 0 1 1 1 false 1) = true ↔
      (0 : ℚ) < 1 ∨ (1 : ℚ) ≤ 0 :=
  (dfieldChecks_degenerate_domain 1 0 0 1 1 1 false 1 (by norm_num)
    (by norm_num) (by decide)).1

lemma curveLoop_mem_bounds (f : ℚ → ℚ → ℚ) (p : ℕ) (y0 ye xe step : ℚ) :
    ∀ (fuel : ℕ) (x y xv yv : ℚ),
      (xv, yv) ∈ curveLoop f p y0 ye xe step fuel x y →
      y0 - tol ≤ yv ∧ yv ≤ ye + tol ∧ xv ≤ xe + tol := by
  intro fuel
  induction fuel with
  | zero =>
    intro x y xv yv hv
    simp [curveLoop] at hv
  | succ n ih =>
    intro x y xv yv hv
    simp only [curveLoop] at hv
    split at hv
    · rename_i hxle
      split at hv
      · simp at hv
      · rename_i hyin
        push_neg at hyin
        rcases List.mem_cons.mp hv with heq | hv
        · injection heq with h1 h2
          subst h1
          subst h2
          exact ⟨hyin.1, hyin.2, hxle⟩
        · exact ih _ _ xv yv hv
    · simp at hv

lemma curveLoop_out_empty (f : ℚ → ℚ → ℚ) (p : ℕ) (y0 ye xe step : ℚ)
    (fuel : ℕ) (x y : ℚ) (h : y < y0 - tol ∨ y > ye + tol) :
    curveLoop f p y0 ye xe step fuel x y = [] := by
  cases fuel with
  | zero => rfl
  | succ n =>
    simp only [curveLoop]
    by_cases hx : x ≤ xe + tol
    · rw [if_pos hx, if_pos h]
    · rw [if_neg hx]

lemma overlaySegments_short (pts : List (ℚ × ℚ)) (h : pts.length < 2) :
    overlaySegments pts = [] := by
  match pts, h with
  | [], _ => rfl
  | [a], _ => rfl

unseal Rat.mul Rat.add Rat.sub Rat.inv in
/-- Counterexample to C3: with `y_max = 1 - 10^-13` (and curve initial
state `x = 0, y = 1`, `f = 0`, step 1, precision 0, `x_max = 1`) the
overlay retains the states `(0, 1)` and `(1, 1)` although their `y = 1`
lies strictly outside `[y_min, y_max]`: the code's stop test allows a
`1e-12` overshoot, so a two-point polyline is drawn entirely above the
y-range. -/
theorem curveLoop_exceeds_y_range :
    curveLoop (fun _ _ => 0) 0 0 (1 - 1 / 10 ^ 13) 1 1 10 0 1 =
      [(0, 1), (1, 1)] ∧
    ((1 : ℚ) - 1 / 10 ^ 13 < 1) := by
  constructor
  · decide
  · decide

/-- C3 as amended: the overlay retains a state `(x, y)` only while
`y_min - 1e-12 <= y <= y_max + 1e-12` and `x <= x_max + 1e-12` (the
code's numerical tolerance); if the rounded initial `y` lies outside
that tolerant band the overlay is the empty point (hence segment)
sequence; and whenever fewer than two points survive, the polyline's
segment sequence is empty. -/
theorem curveOverlay_bounded_region (f : ℚ → ℚ → ℚ) (p : ℕ)
    (y0 ye xe step : ℚ) (fuel : ℕ) :
    (∀ x y xv yv, (xv, yv) ∈ curveLoop f p y0 ye xe step fuel x y →
      y0 - tol ≤ yv ∧ yv ≤ ye + tol ∧ xv ≤ xe + tol) ∧
    (∀ cx cy cs x0,
      (roundToPrecision cy p < y0 - tol ∨ roundToPrecision cy p > ye + tol) →
      curveOverlay f p cx cy cs x0 xe y0 ye fuel = []) ∧
    (∀ cx cy cs x0,
      (curveOverlay f p cx cy cs x0 xe y0 ye fuel).length < 2 →
      overlaySegments (curveOverlay f p cx cy cs x0 xe y0 ye fuel) = []) := by
  refine ⟨fun x y xv yv hv => curveLoop_mem_bounds f p y0 ye xe step fuel x y xv yv hv,
    fun cx cy cs x0 hout => ?_, fun cx cy cs x0 hlen => overlaySegments_short _ hlen⟩
  unfold curveOverlay
  rw [curveLoop_out_empty f p y0 ye xe _ fuel _ _ hout]
  rfl

unseal Rat.mul Rat.add Rat.sub Rat.inv in
/-- Witness for the amended C3: in the run with `f = 0`, unit step,
`y-range [0,1]`, `x_max = 0`, the single retained state `(0, 0)` obeys
the tolerant bounds, and an initial `y = 5` outside the band yields an
empty overlay. -/
theorem curveOverlay_bounded_region_witness :
    ((0 : ℚ) - tol ≤ 0 ∧ (0 : ℚ) ≤ 1 + tol ∧ (0 : ℚ) ≤ 0 + tol) ∧
    curveOverlay (fun _ _ => 0) 0 0 5 1 0 0 0 1 4 = [] := by
  constructor
  · exact (curveOverlay_bounded_region (fun _ _ => 0) 0 0 1 0 1 4).1
      0 0 0 0 (by decide)
  · exact (curveOverlay_bounded_region (fun _ _ => 0) 0 0 1 0 1 4).2.1
      0 5 1 0 (by decide)

lemma sampleSegs_error_of_mem (g : ℚ × ℚ → Except String Segment) (E : String)
    (hall : ∀ q e, g q = Except.error e → e = E) :
    ∀ (l : List (ℚ × ℚ)) (pt : ℚ × ℚ), pt ∈ l → g pt = Except.error E →
      sampleSegs g l = Except.error E := by
  intro l
  induction l with
  | nil =>
    intro pt hmem
    simp at hmem
  | cons hd tl ih =>
    intro pt hmem hpt
    simp only [sampleSegs]
    rcases hhd : g hd with e | s
    · rw [hall hd e hhd]
    · rcases List.mem_cons.mp hmem with rfl | hmem
      · rw [hhd] at hpt
        exact absurd hpt (by simp)
      · rw [ih pt hmem hpt]

lemma sampleSegs_ok_length (g : ℚ × ℚ → Except String Segment) :
    ∀ (l : List (ℚ × ℚ)) (segs : List Segment),
      sampleSegs g l = Except.ok segs → segs.length = l.length := by
  intro l
  induction l with
  | nil =>
    intro segs h
    simp only [sampleSegs, Except.ok.injEq] at h
    rw [← h]
    rfl
  | cons hd tl ih =>
    intro segs h
    simp only [sampleSegs] at h
    rcases hhd : g hd with e | s
    · rw [hhd] at h
      exact absurd h (by simp)
    · rw [hhd] at h
      rcases hrec : sampleSegs g tl with e2 | rest
      · rw [hrec] at h
        exact absurd h (by simp)
      · rw [hrec] at h
        simp only [Except.ok.injEq] at h
        rw [← h]
        simp [ih rest hrec]

/-- C8: if the slope evaluator fails at any sampled grid point, the
whole field sampling fails with the expression error naming the formula
(no partial field); and any successful sampling yields exactly one
segment per sampled grid point — all or nothing. -/
theorem sampleField_all_or_nothing (f : ℚ → ℚ → Option ℚ) (fn : String)
    (sq : ℚ → ℚ) (x0 y0 xe ye xstep ystep : ℚ) (fuel : ℕ) :
    (∀ x y,
      (x, y) ∈ fieldGrid x0 xe y0 ye xstep (ySampleStepOf x0 xe y0 ye ystep) fuel →
      f x y = none →
      sampleField f fn sq x0 y0 xe ye xstep ystep fuel =
        Except.error ("error parsing expr" ++ fn)) ∧
    (∀ segs, sampleField f fn sq x0 y0 xe ye xstep ystep fuel = Except.ok segs →
      segs.length =
        (fieldGrid x0 xe y0 ye xstep (ySampleStepOf x0 xe y0 ye ystep) fuel).length) := by
  constructor
  · intro x y hmem hnone
    unfold sampleField
    refine sampleSegs_error_of_mem _ _ ?_ _ (x, y) hmem ?_
    · intro q e hq
      simp only [slope] at hq
      rcases hfq : f q.1 q.2 with _ | m
      · rw [hfq] at hq
        simp only [Except.map] at hq
        injection hq with he
        exact he.symm
      · rw [hfq] at hq
        exact absurd hq (by simp [Except.map])
    · simp only [slope, hnone, Except.map]
  · intro segs h
    exact sampleSegs_ok_length _ _ segs h

unseal Rat.mul Rat.add Rat.sub Rat.inv in
/-- Witness for C8: an always-failing evaluator on the unit domain with
unit grid makes the whole sampling fail with the expression error. -/
theorem sampleField_all_or_nothing_witness :
    sampleField (fun _ _ => none) "y" (fun _ => 1) 0 0 1 1 1 1 2 =
      Except.error ("error parsing expr" ++ "y") :=
  (sampleField_all_or_nothing (fun _ _ => none) "y" (fun _ => 1)
    0 0 1 1 1 1 2).1 0 0 (by decide) rfl

end EulerMethod
